import Mathlib

/-!
# Verification of the wealth-manager web app's data services

A shallow embedding of the repository's `financialDataService`,
`databaseManagerService`, `databaseService` (the simulated MongoDB layer)
and `portfolioService`, together with proofs about their behaviour.

Modelling conventions:
* JavaScript numbers are modelled as `ℚ` (the claims under study only
  concern ordering and exact arithmetic of the mock generator).
* Calendar dates are modelled as days since the Unix epoch (`Nat`); ISO
  date strings are in order-preserving bijection with these day numbers.
  Instants are milliseconds since the epoch (`Nat`).  The runtime's local
  timezone is taken to be UTC.
* JavaScript string comparison (`<` on strings, by UTF-16 code units) is
  modelled by `strLt` below; for the ASCII strings involved this is exact.
* `Math.random()` streams are abstracted as functions `Nat → ℚ` whose
  values the theorems constrain to `[0, 1]`.
* The in-memory `Map` collections of the simulated MongoDB are modelled as
  functions `String → Option α`.
-/

namespace WealthManager

/-! ## JavaScript string comparison (code-unit lexicographic order) -/

/-- Lexicographic comparison of character lists by code unit, as JavaScript
compares strings. -/
def charListLt : List Char → List Char → Bool
  | [], [] => false
  | [], _ :: _ => true
  | _ :: _, [] => false
  | a :: as, b :: bs =>
    if a.toNat < b.toNat then true
    else if b.toNat < a.toNat then false
    else charListLt as bs

/-- JavaScript `a < b` on strings. -/
def strLt (a b : String) : Bool := charListLt a.data b.data

/-- JavaScript `a >= b` on strings (`!(a < b)`). -/
def strGe (a b : String) : Bool := !(strLt a b)

/-! ## Calendar arithmetic (JavaScript `Date`, local timezone = UTC) -/

/-- Leap-year test of the Gregorian calendar. -/
def isLeap (y : Nat) : Bool := (y % 4 == 0 && y % 100 != 0) || y % 400 == 0

/-- Number of days in year `y`. -/
def daysInYear (y : Nat) : Nat := if isLeap y then 366 else 365

/-- Month lengths of year `y` (month 0 = January, as in JavaScript). -/
def monthLengths (y : Nat) : List Nat :=
  [31, if isLeap y then 29 else 28, 31, 30, 31, 30, 31, 31, 30, 31, 30, 31]

/-- Total days in the years `[1970, 1970 + n)`, counted from year `y0`. -/
def sumDaysInYears : Nat → Nat → Nat
  | 0, _ => 0
  | n + 1, y0 => daysInYear y0 + sumDaysInYears n (y0 + 1)

/-- Days between 1970-01-01 and the start of year `y` (for `y ≥ 1970`). -/
def daysBeforeYear (y : Nat) : Nat := sumDaysInYears (y - 1970) 1970

/-- Resolve a day-of-year offset into a year, starting the search at `y`
with the given fuel.  Returns `(year, day-of-year)`. -/
def findYearGo : Nat → Nat → Nat → Nat × Nat
  | 0, y, d => (y, d)
  | fuel + 1, y, d => if d < daysInYear y then (y, d) else findYearGo fuel (y + 1) (d - daysInYear y)

/-- Resolve a day-of-year into a month, given the month-length table.
Returns `(month index, day-of-month starting at 0)`. -/
def findMonthGo : List Nat → Nat → Nat × Nat
  | [], d => (0, d)
  | ml :: rest, d =>
    if d < ml then (0, d)
    else
      let p := findMonthGo rest (d - ml)
      (p.1 + 1, p.2)

/-- Convert days since the epoch to `(year, month0, day-of-month1)`. -/
def civilFromDays (d : Nat) : Nat × Nat × Nat :=
  let yp := findYearGo (d + 1) 1970 d
  let mp := findMonthGo (monthLengths yp.1) yp.2
  (yp.1, mp.1, mp.2 + 1)

/-- Convert `(year, month0, day-of-month1)` to days since the epoch.
Day-of-month overflow rolls into the next month, exactly as JavaScript's
`Date` setters normalise out-of-range components. -/
def daysFromCivil (y m dom : Nat) : Nat :=
  daysBeforeYear y + ((monthLengths y).take m).sum + (dom - 1)

/-- JavaScript `getDay()` of a day number: 0 = Sunday; the epoch fell on a
Thursday. -/
def weekday (d : Nat) : Nat := (d + 4) % 7

/-- Milliseconds per day. -/
def msPerDay : Nat := 1000 * 60 * 60 * 24

/-- Day number of an instant given in milliseconds since the epoch. -/
def dayOfMs (ms : Nat) : Nat := ms / msPerDay

/-- Three-letter weekday name used by `Date.prototype.toDateString`. -/
def weekdayName : Nat → String
  | 0 => "Sun"
  | 1 => "Mon"
  | 2 => "Tue"
  | 3 => "Wed"
  | 4 => "Thu"
  | 5 => "Fri"
  | _ => "Sat"

/-- Three-letter month name used by `Date.prototype.toDateString`. -/
def monthName : Nat → String
  | 0 => "Jan"
  | 1 => "Feb"
  | 2 => "Mar"
  | 3 => "Apr"
  | 4 => "May"
  | 5 => "Jun"
  | 6 => "Jul"
  | 7 => "Aug"
  | 8 => "Sep"
  | 9 => "Oct"
  | 10 => "Nov"
  | _ => "Dec"

/-- Zero-padded two-digit decimal rendering. -/
def pad2 (n : Nat) : String := if n < 10 then "0" ++ toString n else toString n

/-- `Date.prototype.toDateString`, e.g. `"Thu Jan 01 2026"`. -/
def toDateString (ms : Nat) : String :=
  let d := dayOfMs ms
  let c := civilFromDays d
  weekdayName (weekday d) ++ " " ++ monthName c.2.1 ++ " " ++ pad2 c.2.2 ++ " " ++ toString c.1

/-! ## Data model (`databaseService.ts`) -/

/-- One daily OHLCV record (`PriceData` in `databaseService.ts`).  The
source's ISO date string is modelled by its day number; prices are `ℚ`. -/
structure PriceData where
  date : Nat
  openPrice : ℚ
  high : ℚ
  low : ℚ
  close : ℚ
  volume : ℤ
  adjustedClose : ℚ
deriving DecidableEq

/-- `FundamentalData.companyInfo` from `databaseService.ts`. -/
structure CompanyInfo where
  name : String
  sector : String
  industry : String
  marketCap : ℚ
  enterpriseValue : ℚ
  trailingPE : ℚ
  forwardPE : ℚ
  pegRatio : ℚ
  priceToSales : ℚ
  priceToBook : ℚ
  enterpriseToRevenue : ℚ
  enterpriseToEbitda : ℚ
  beta : ℚ
  fiftyTwoWeekHigh : ℚ
  fiftyTwoWeekLow : ℚ
  dividendYield : ℚ
  dividendRate : ℚ
  exDividendDate : String
  payoutRatio : ℚ
  dividendPerShare : ℚ
deriving DecidableEq

/-- `FundamentalData.financialStatements.incomeStatement`. -/
structure IncomeStatement where
  totalRevenue : ℚ
  grossProfit : ℚ
  operatingIncome : ℚ
  netIncome : ℚ
  earningsPerShare : ℚ
  dilutedEPS : ℚ
deriving DecidableEq

/-- `FundamentalData.financialStatements.balanceSheet`. -/
structure BalanceSheet where
  totalAssets : ℚ
  totalLiabilities : ℚ
  totalStockholderEquity : ℚ
  currentAssets : ℚ
  currentLiabilities : ℚ
  totalDebt : ℚ
deriving DecidableEq

/-- `FundamentalData.financialStatements.cashFlow`. -/
structure CashFlow where
  operatingCashFlow : ℚ
  investingCashFlow : ℚ
  financingCashFlow : ℚ
  freeCashFlow : ℚ
deriving DecidableEq

/-- `FundamentalData.financialStatements`. -/
structure FinancialStatements where
  incomeStatement : IncomeStatement
  balanceSheet : BalanceSheet
  cashFlow : CashFlow
deriving DecidableEq

/-- `FundamentalData` from `databaseService.ts`. -/
structure FundamentalData where
  symbol : String
  companyInfo : CompanyInfo
  financialStatements : FinancialStatements
deriving DecidableEq

/-- A symbol-metadata record of the simulated `symbols` collection.  The
source stores plain JavaScript objects built by spreading, so every field
may be absent (`none` models `undefined`). -/
structure SymbolMeta where
  symbol : Option String
  name : Option String
  priceDataAvailable : Option Bool
  fundamentalDataAvailable : Option Bool
  priceDataCount : Option Nat
  fundamentalDataCount : Option Nat
  lastUpdated : Option String
  status : Option String
deriving DecidableEq

/-- The empty object `{}` used when a symbol has no metadata yet. -/
def emptyMeta : SymbolMeta := ⟨none, none, none, none, none, none, none, none⟩

/-- JavaScript truthiness of a possibly-undefined boolean field. -/
def truthy : Option Bool → Bool
  | some b => b
  | none => false

/-- The simulated MongoDB of `databaseService.ts`: three `Map` collections
keyed by ticker symbol. -/
structure MongoDB where
  symbols : String → Option SymbolMeta
  priceData : String → Option (List PriceData)
  fundamentalData : String → Option FundamentalData

/-- The freshly connected database: all collections empty. -/
def emptyDB : MongoDB := ⟨fun _ => none, fun _ => none, fun _ => none⟩

/-- `Map.prototype.set` / `Map.prototype.delete` on a modelled collection. -/
def setKey (m : String → Option α) (k : String) (v : Option α) : String → Option α :=
  fun x => if x = k then v else m x

/-- `savePriceDataToMongoDB` (`databaseService.ts`).  Replaces the price
series stored under `symbol` and rebuilds the symbol-metadata record via
object spread, exactly as the source does.  `nowIso` stands for
`new Date().toISOString()`. -/
def savePriceDataToMongoDB (st : MongoDB) (symbol : String) (priceData : List PriceData)
    (nowIso : String) : MongoDB :=
  let existingSymbol := (st.symbols symbol).getD emptyMeta
  { st with
    priceData := setKey st.priceData symbol (some priceData)
    symbols := setKey st.symbols symbol (some
      { existingSymbol with
        symbol := some symbol
        priceDataAvailable := some true
        priceDataCount := some priceData.length
        lastUpdated := some nowIso
        status := some (if truthy existingSymbol.fundamentalDataAvailable
          then "complete" else "partial") }) }

/-- `saveFundamentalDataToMongoDB` (`databaseService.ts`). -/
def saveFundamentalDataToMongoDB (st : MongoDB) (symbol : String) (fd : FundamentalData)
    (nowIso : String) : MongoDB :=
  let existingSymbol := (st.symbols symbol).getD emptyMeta
  { st with
    fundamentalData := setKey st.fundamentalData symbol (some fd)
    symbols := setKey st.symbols symbol (some
      { existingSymbol with
        symbol := some symbol
        fundamentalDataAvailable := some true
        fundamentalDataCount := some 1
        lastUpdated := some nowIso
        status := some (if truthy existingSymbol.priceDataAvailable
          then "complete" else "partial") }) }

/-- `getPriceDataFromMongoDB` (`databaseService.ts`): `get(symbol) || []`. -/
def getPriceDataFromMongoDB (st : MongoDB) (symbol : String) : List PriceData :=
  (st.priceData symbol).getD []

/-- `getFundamentalDataFromMongoDB` (`databaseService.ts`):
`get(symbol) || null`. -/
def getFundamentalDataFromMongoDB (st : MongoDB) (symbol : String) : Option FundamentalData :=
  st.fundamentalData symbol

/-- `deleteSymbolFromMongoDB` (`databaseService.ts`): removes the symbol
from all three collections. -/
def deleteSymbolFromMongoDB (st : MongoDB) (symbol : String) : MongoDB :=
  { symbols := setKey st.symbols symbol none
    priceData := setKey st.priceData symbol none
    fundamentalData := setKey st.fundamentalData symbol none }

/-- A mutating operation of the simulated MongoDB layer. -/
inductive DbOp where
  | savePrice (symbol : String) (priceData : List PriceData) (nowIso : String)
  | saveFundamental (symbol : String) (fd : FundamentalData) (nowIso : String)
  | deleteSymbol (symbol : String)

/-- Apply one operation to the store. -/
def applyOp (st : MongoDB) : DbOp → MongoDB
  | .savePrice s p now => savePriceDataToMongoDB st s p now
  | .saveFundamental s f now => saveFundamentalDataToMongoDB st s f now
  | .deleteSymbol s => deleteSymbolFromMongoDB st s

/-- Run a sequence of operations from the empty store. -/
def runOps (ops : List DbOp) : MongoDB := ops.foldl applyOp emptyDB

/-! ## The mock price generator (`FinancialDataService.downloadPriceData`) -/

/-- `Number(x.toFixed(2))` for the non-negative prices produced by the
generator: round to two decimals, half away from zero. -/
def round2 (x : ℚ) : ℚ := (⌊100 * x + 1 / 2⌋ : ℚ) / 100

/-- `d.getDay() === 0 || d.getDay() === 6`: the generator's weekend test. -/
def isWeekend (d : Nat) : Bool := weekday d == 0 || weekday d == 6

/-- The day-by-day loop of `downloadPriceData`.  `rand` is the stream of
`Math.random()` results (six draws per trading day, in source order:
volatility, change, high, low, open, volume), `k` the index of the next
draw and `price` the running `currentPrice`. -/
def genLoop (rand : Nat → ℚ) : List Nat → Nat → ℚ → List PriceData
  | [], _, _ => []
  | d :: ds, k, price =>
    if isWeekend d then genLoop rand ds k price
    else
      let volatility := 2 / 100 + rand k * (3 / 100)
      let change := (rand (k + 1) - 1 / 2) * volatility * price
      let price1 := max (price + change) 1
      let high := price1 + rand (k + 2) * price1 * (2 / 100)
      let low := price1 - rand (k + 3) * price1 * (2 / 100)
      let openv := low + rand (k + 4) * (high - low)
      let volume := ⌊rand (k + 5) * 10000000⌋ + 1000000
      { date := d, openPrice := round2 openv, high := round2 high, low := round2 low,
        close := round2 price1, volume := volume, adjustedClose := round2 price1 }
        :: genLoop rand ds (k + 6) price1

/-- The start date `downloadPriceData` uses when none is supplied: today
minus 40 years (`setFullYear(getFullYear() - 40)`). -/
def defaultStartDay (today : Nat) : Nat :=
  let c := civilFromDays today
  daysFromCivil (c.1 - 40) c.2.1 c.2.2

/-- The record list built by `downloadPriceData` for the day range
`[startDay, endDay]`: one record per non-weekend day.  `rand 0` seeds the
initial `currentPrice = 100 + Math.random() * 200`. -/
def downloadPriceDataRecords (rand : Nat → ℚ) (startDay endDay : Nat) : List PriceData :=
  genLoop rand (List.range' startDay (endDay + 1 - startDay)) 1 (100 + rand 0 * 200)

/-! ## Batch download orchestration (`FinancialDataService.downloadBatchPriceData`)

The per-call behaviour of the mock collaborators is abstracted into an
environment: `fetch s a b` is the record list `downloadPriceData s a b`
produces (its internal `Math.random()` stream is private to the call),
`fetchOk s` whether that call succeeds, and `lastAvailable s` the result of
`getLastAvailableDate s`.  The cooperative cancellation token is modelled
as the value the `cancelToken.cancelled` flag has at each batch-boundary
read, indexed by batch number; this captures exactly the program's reads
of the flag.  `Promise.allSettled` over a batch is modelled by processing
the batch's symbols in list order; distinct symbols touch disjoint store
keys and disjoint progress slots, so any interleaving yields this result. -/

/-- Observable calls made during a batch download. -/
inductive Ev where
  | getLast (symbol : String) (result : Option Nat)
  | download (symbol : String) (startOpt endOpt : Option Nat) (ok : Bool)
  | deletePrice (symbol : String)
  | save (symbol : String) (count : Nat)
deriving DecidableEq

/-- The environment a batch download runs against. -/
structure Env where
  lastAvailable : String → Option Nat
  fetch : String → Option Nat → Option Nat → List PriceData
  fetchOk : String → Bool
  today : Nat
  nowIso : String
  cancelReason : Option String

/-- One entry of the `DownloadProgress[]` array (`databaseService.ts`). -/
structure DownloadProgress where
  symbol : String
  type : String
  progress : Nat
  status : String
  message : String
deriving DecidableEq

/-- Replace the element at index `i` (out-of-range indices leave the list
unchanged, as assignment past the end never happens in the source). -/
def modifyAt (f : α → α) : Nat → List α → List α
  | _, [] => []
  | 0, a :: as => f a :: as
  | n + 1, a :: as => a :: modifyAt f n as

/-- Progress update for a successful symbol. -/
def completeDP (override : Bool) (n : Nat) (p : DownloadProgress) : DownloadProgress :=
  { p with
    progress := 100
    status := "complete"
    message := if override then "Downloaded " ++ toString n ++ " records (override)"
      else "Downloaded " ++ toString n ++ " records" }

/-- Progress update for a failed symbol. -/
def failDP (p : DownloadProgress) : DownloadProgress :=
  { p with status := "error", message := "Download failed" }

/-- Progress update applied to the whole array on cancellation. -/
def cancelDP (env : Env) (p : DownloadProgress) : DownloadProgress :=
  { p with
    status := "error"
    message := "Cancelled: " ++ (env.cancelReason.getD "Download was cancelled") }

/-- The events one symbol's task emits, in order.  `downloadPriceData`
itself saves its result to MongoDB (line 51 of the service) and the task
saves it again through `savePriceData`; in override mode `deletePriceData`
— a pure simulation that touches no collection — runs in between. -/
def symEvents (env : Env) (override : Bool) (s : String) : List Ev :=
  if override then
    if env.fetchOk s then
      [Ev.download s none none true, Ev.save s (env.fetch s none none).length,
        Ev.deletePrice s, Ev.save s (env.fetch s none none).length]
    else [Ev.download s none none false]
  else
    match env.lastAvailable s with
    | some d =>
      if env.fetchOk s then
        Ev.getLast s (some d) :: Ev.download s (some (d + 1)) (some env.today) true ::
          [Ev.save s (env.fetch s (some (d + 1)) (some env.today)).length,
            Ev.save s (env.fetch s (some (d + 1)) (some env.today)).length]
      else [Ev.getLast s (some d), Ev.download s (some (d + 1)) (some env.today) false]
    | none =>
      if env.fetchOk s then
        Ev.getLast s none :: Ev.download s none none true ::
          [Ev.save s (env.fetch s none none).length,
            Ev.save s (env.fetch s none none).length]
      else [Ev.getLast s none, Ev.download s none none false]

/-- The record list a symbol's task downloads (incremental range when a
last-available date exists and override is off, full default history
otherwise). -/
def fetchedData (env : Env) (override : Bool) (s : String) : List PriceData :=
  if override then env.fetch s none none
  else
    match env.lastAvailable s with
    | some d => env.fetch s (some (d + 1)) (some env.today)
    | none => env.fetch s none none

/-- One symbol's task inside a batch: the incremental-vs-full branch, the
override delete, the saves, and the progress update at
`symbols.indexOf(symbol)`.  Accumulates `(store, progress, events)`. -/
def processSymbol (env : Env) (override : Bool) (symbols : List String)
    (acc : MongoDB × List DownloadProgress × List Ev) (s : String) :
    MongoDB × List DownloadProgress × List Ev :=
  let gi := symbols.indexOf s
  if env.fetchOk s then
    let data := fetchedData env override s
    let st1 := savePriceDataToMongoDB acc.1 s data env.nowIso
    let st2 := savePriceDataToMongoDB st1 s data env.nowIso
    (st2, modifyAt (completeDP override data.length) gi acc.2.1,
      acc.2.2 ++ symEvents env override s)
  else
    (acc.1, modifyAt failDP gi acc.2.1, acc.2.2 ++ symEvents env override s)

/-- `Promise.allSettled` over one batch. -/
def processBatch (env : Env) (override : Bool) (symbols : List String)
    (acc : MongoDB × List DownloadProgress × List Ev) (batch : List String) :
    MongoDB × List DownloadProgress × List Ev :=
  batch.foldl (processSymbol env override symbols) acc

/-- The per-batch progress reset (`status: 'downloading'`) applied to the
`n` entries starting at global index `i`. -/
def markDownloading (override : Bool) : Nat → Nat → List DownloadProgress → List DownloadProgress
  | _, 0, prog => prog
  | i, n + 1, prog =>
    markDownloading override (i + 1) n
      (modifyAt (fun p => { p with
        status := "downloading"
        message := if override then "Downloading (override mode)..."
          else "Downloading price data..." }) i prog)

/-- Result of a batch download: final store, final progress array, the
argument of every `onProgress` call in order, and the event trace. -/
structure BatchResult where
  store : MongoDB
  progressFinal : List DownloadProgress
  reports : List (List DownloadProgress)
  events : List Ev

/-- The `for (let i = 0; i < symbols.length; i += batchSize)` loop of
`downloadBatchPriceData` with `batchSize = 100`.  `fuel` bounds the number
of iterations; the driver passes `symbols.length`, which never runs out. -/
def batchLoop (env : Env) (override : Bool) (cancelAt : Nat → Bool) (symbols : List String) :
    Nat → Nat → MongoDB → List DownloadProgress → List (List DownloadProgress) → List Ev →
    BatchResult
  | 0, _, st, prog, reports, evs => ⟨st, prog, reports, evs⟩
  | fuel + 1, i, st, prog, reports, evs =>
    if i < symbols.length then
      if cancelAt (i / 100) then
        ⟨st, prog, reports ++ [prog.map (cancelDP env)], evs⟩
      else
        let batch := (symbols.drop i).take 100
        let prog1 := markDownloading override i batch.length prog
        let res := processBatch env override symbols (st, prog1, evs) batch
        batchLoop env override cancelAt symbols fuel (i + 100) res.1 res.2.1
          (reports ++ [prog1, res.2.1]) res.2.2
    else ⟨st, prog, reports, evs⟩

/-- The initial progress entry of a symbol. -/
def initDP (s : String) : DownloadProgress :=
  ⟨s, "price", 0, "pending", "Waiting to start..."⟩

/-- `downloadBatchPriceData` over initial store `st0`.  `cancelAt k` is the
value of `cancelToken.cancelled` at the boundary check of batch `k`. -/
def downloadBatchPriceData (env : Env) (st0 : MongoDB) (symbols : List String)
    (override : Bool) (cancelAt : Nat → Bool) : BatchResult :=
  let prog0 := symbols.map initDP
  batchLoop env override cancelAt symbols symbols.length 0 st0 prog0 [prog0] []

/-- The consecutive batches of at most 100 symbols the loop forms:
`symbols.slice(i, i + 100)` for `i = 0, 100, 200, …`. -/
def chunksAux (l : List String) : Nat → Nat → List (List String)
  | 0, _ => []
  | fuel + 1, i => if i < l.length then (l.drop i).take 100 :: chunksAux l fuel (i + 100) else []

/-- The batch list of a symbol list. -/
def batchList (symbols : List String) : List (List String) :=
  chunksAux symbols symbols.length 0

/-- Does this event record a download attempt of symbol `s`? -/
def isDownloadOf (s : String) : Ev → Bool
  | .download s' _ _ _ => s' == s
  | _ => false

/-! ## The scheduler (`DatabaseManagerService.isScheduleDue`) -/

/-- An `UpdateSchedule` (`databaseManagerService.ts`).  `frequency` is kept
as a string so the `switch` default branch is representable; `lastRun` is
the parsed instant of the stored ISO string, `none` for `null`. -/
structure UpdateSchedule where
  id : String
  name : String
  frequency : String
  time : String
  enabled : Bool
  lastRun : Option Nat
deriving DecidableEq

/-- `isScheduleDue(schedule, now, currentTime)`.  `nowMs` is the instant
`now` in milliseconds since the epoch and `currentTime` its `"HH:MM"`
rendering as passed by the caller.  Note that the `'daily'` branch compares
the two `toDateString()` renderings as JavaScript strings, and that the
`'weekly'` branch floors the exact millisecond difference divided by a
day. -/
def isScheduleDue (schedule : UpdateSchedule) (nowMs : Nat) (currentTime : String) : Bool :=
  let lastRun : Nat := schedule.lastRun.getD 0
  let today := toDateString nowMs
  let lastRunDate := toDateString lastRun
  if schedule.frequency = "daily" then
    strLt lastRunDate today && strGe currentTime schedule.time
  else if schedule.frequency = "weekly" then
    let daysSinceLastRun : ℤ := ⌊(((nowMs : ℚ) - (lastRun : ℚ)) / (1000 * 60 * 60 * 24))⌋
    decide (7 ≤ daysSinceLastRun) && strGe currentTime schedule.time
  else if schedule.frequency = "monthly" then
    let nowC := civilFromDays (dayOfMs nowMs)
    let lastC := civilFromDays (dayOfMs lastRun)
    let monthsSinceLastRun : ℤ := ((nowC.1 : ℤ) - (lastC.1 : ℤ)) * 12 +
      ((nowC.2.1 : ℤ) - (lastC.2.1 : ℤ))
    decide (1 ≤ monthsSinceLastRun) && strGe currentTime schedule.time
  else false

/-! ## REST proxy (`portfolioService.ts`) -/

/-- HTTP methods used by the `axios`-style `api` client. -/
inductive HttpMethod where
  | get
  | post
  | put
  | delete
deriving DecidableEq

/-- A request as assembled by `portfolioService`: method, url, optional
multipart form data (name/content pairs; files are modelled by their
contents) and optional explicit `Content-Type` header. -/
structure ApiRequest where
  method : HttpMethod
  url : String
  formData : Option (List (String × String))
  contentType : Option String
deriving DecidableEq

/-- An HTTP response; `data` is the parsed body. -/
structure ApiResponse (δ : Type) where
  data : δ

/-- The backend: maps a request to a response or an error. -/
def Api (ε δ : Type) := ApiRequest → Except ε (ApiResponse δ)

/-- A plain `api.get(url)` request. -/
def apiGet (url : String) : ApiRequest := ⟨.get, url, none, none⟩

/-- `portfolioService.getPortfolios`: `GET /portfolios`, resolving to the
response data; a request error is logged and rethrown. -/
def getPortfolios (api : Api ε δ) : Except ε δ :=
  match api (apiGet "/portfolios") with
  | .ok response => .ok response.data
  | .error e => .error e

/-- `portfolioService.getHoldings`:
`GET /portfolios/{portfolioId}/holdings`. -/
def getHoldings (api : Api ε δ) (portfolioId : Nat) : Except ε δ :=
  match api (apiGet ("/portfolios/" ++ toString portfolioId ++ "/holdings")) with
  | .ok response => .ok response.data
  | .error e => .error e

/-- `portfolioService.uploadCSV`:
`POST /portfolios/{portfolioId}/upload-csv` with the file appended to a
`FormData` under the name `"file"` and a multipart content type. -/
def uploadCSV (api : Api ε δ) (portfolioId : Nat) (file : String) : Except ε δ :=
  let formData := [("file", file)]
  match api ⟨.post, "/portfolios/" ++ toString portfolioId ++ "/upload-csv",
      some formData, some "multipart/form-data"⟩ with
  | .ok response => .ok response.data
  | .error e => .error e

/-! ## Specification-side definitions and concrete fixtures -/

/-- The daily-due condition as the specification words it: the current
calendar day is later than the day of the last run, and the current HH:MM
time is at or after the schedule's time.  (To be compared with the
`'daily'` branch of `isScheduleDue`, which instead compares
`toDateString()` strings lexicographically.) -/
def dailyDueSpec (schedule : UpdateSchedule) (nowMs : Nat) (currentTime : String) : Bool :=
  decide (dayOfMs (schedule.lastRun.getD 0) < dayOfMs nowMs) && strGe currentTime schedule.time

/-- The consistency shape of a stored symbol-metadata record: availability
flags are never `some false`, at least one is set, and `status` reflects
them. -/
def metaConsistent (m : SymbolMeta) : Prop :=
  (m.priceDataAvailable = none ∨ m.priceDataAvailable = some true) ∧
  (m.fundamentalDataAvailable = none ∨ m.fundamentalDataAvailable = some true) ∧
  (m.priceDataAvailable = some true ∨ m.fundamentalDataAvailable = some true) ∧
  m.status = some (if truthy m.priceDataAvailable && truthy m.fundamentalDataAvailable
    then "complete" else "partial")

/-- Every stored metadata record is consistent. -/
def storeConsistent (st : MongoDB) : Prop :=
  ∀ s m, st.symbols s = some m → metaConsistent m

/-- An always-zero random stream (a valid `Math.random()` history). -/
def zeroRand : Nat → ℚ := fun _ => 0

/-- A cancellation flag that is never set. -/
def noCancel : Nat → Bool := fun _ => false

/-- A cancellation flag that is set before the call starts. -/
def yesCancel : Nat → Bool := fun _ => true

/-- A fetch oracle returning empty record lists. -/
def trivFetch : String → Option Nat → Option Nat → List PriceData := fun _ _ _ => []

/-- A concrete environment with no pre-existing data. -/
def sampleEnv : Env := ⟨fun _ => none, trivFetch, fun _ => true, 0, "2026-01-01T00:00:00.000Z", none⟩

/-- A concrete environment whose symbols all have a last available date. -/
def sampleEnvIncr : Env :=
  ⟨fun _ => some 10, trivFetch, fun _ => true, 20, "2026-01-01T00:00:00.000Z", none⟩

/-- A daily schedule last run on Thursday 2026-01-01 at midnight. -/
def ceSchedule : UpdateSchedule :=
  ⟨"s1", "nightly", "daily", "00:00", true, some (daysFromCivil 2026 0 1 * msPerDay)⟩

/-- Midnight of Friday 2026-01-02 in milliseconds since the epoch. -/
def ceNowMs : Nat := daysFromCivil 2026 0 2 * msPerDay

/-- A weekly schedule that has never run (modulo epoch treatment). -/
def weeklySchedule : UpdateSchedule := ⟨"s2", "weekly refresh", "weekly", "03:00", true, some 0⟩

/-- A backend that answers every request with `7`. -/
def sampleApi : Api Unit Nat := fun _ => .ok ⟨7⟩

/-! ## Theorems: the simulated MongoDB layer (C6, C7, C9) -/

/-- Reading a collection at the key just set yields the new value. -/
theorem setKey_same (m : String → Option α) (k : String) (v : Option α) :
    setKey m k v k = v := by
  simp [setKey]

/-- Reading a collection at any other key is unaffected by a set. -/
theorem setKey_other (m : String → Option α) (k : String) (v : Option α)
    (x : String) (h : x ≠ k) : setKey m k v x = m x := by
  simp [setKey, h]

/-- C6: `savePriceDataToMongoDB(s, p)` replaces the entire stored price
series for `s` with exactly `p` — whatever was stored before, reading back
afterwards yields `p`, never an append — and sets the symbol's metadata to
`priceDataAvailable = true` and `priceDataCount = p.length`. -/
theorem savePriceData_replaces (st : MongoDB) (s : String) (p : List PriceData)
    (now : String) :
    getPriceDataFromMongoDB (savePriceDataToMongoDB st s p now) s = p ∧
    ∃ m, (savePriceDataToMongoDB st s p now).symbols s = some m ∧
      m.priceDataAvailable = some true ∧ m.priceDataCount = some p.length := by
  constructor
  · simp [savePriceDataToMongoDB, getPriceDataFromMongoDB, setKey]
  · exact ⟨_, setKey_same _ _ _, rfl, rfl⟩

/-- C7: price and fundamental records are keyed by ticker symbol: after
`savePriceDataToMongoDB(s, p)`, reading the price data of `s` returns
exactly `p`, while the stored price data, fundamental data and symbol
metadata of every other symbol `s'` are unchanged. -/
theorem store_keyed_by_symbol (st : MongoDB) (s : String) (p : List PriceData)
    (now : String) (s' : String) (h : s' ≠ s) :
    getPriceDataFromMongoDB (savePriceDataToMongoDB st s p now) s = p ∧
    (savePriceDataToMongoDB st s p now).priceData s' = st.priceData s' ∧
    (savePriceDataToMongoDB st s p now).fundamentalData s' = st.fundamentalData s' ∧
    (savePriceDataToMongoDB st s p now).symbols s' = st.symbols s' := by
  refine ⟨?_, ?_, rfl, ?_⟩ <;>
    simp [savePriceDataToMongoDB, getPriceDataFromMongoDB, setKey, h]

/-- Witness for C7 at concrete inputs. -/
theorem store_keyed_by_symbol_witness :
    ("B" ≠ "A") ∧
    (getPriceDataFromMongoDB (savePriceDataToMongoDB emptyDB "A" [] "t") "A" = [] ∧
     (savePriceDataToMongoDB emptyDB "A" [] "t").priceData "B" = emptyDB.priceData "B" ∧
     (savePriceDataToMongoDB emptyDB "A" [] "t").fundamentalData "B" =
       emptyDB.fundamentalData "B" ∧
     (savePriceDataToMongoDB emptyDB "A" [] "t").symbols "B" = emptyDB.symbols "B") :=
  ⟨by decide, store_keyed_by_symbol emptyDB "A" [] "t" "B" (by decide)⟩

/-- `applyOp` preserves metadata consistency. -/
theorem storeConsistent_applyOp (st : MongoDB) (op : DbOp) (h : storeConsistent st) :
    storeConsistent (applyOp st op) := by
  cases op with
  | savePrice s p now =>
    intro s' m hm
    simp only [applyOp, savePriceDataToMongoDB, setKey] at hm
    by_cases hss : s' = s
    · simp only [hss, if_true, eq_self_iff_true, Option.some.injEq] at hm
      subst hm
      have hfund : ((st.symbols s).getD emptyMeta).fundamentalDataAvailable = none ∨
          ((st.symbols s).getD emptyMeta).fundamentalDataAvailable = some true := by
        cases hst : st.symbols s with
        | none => simp [hst, emptyMeta]
        | some m0 => simpa [hst] using (h s m0 hst).2.1
      refine ⟨Or.inr rfl, hfund, Or.inl rfl, ?_⟩
      rcases hfund with hf | hf <;> simp [hf, truthy]
    · simp only [if_neg hss] at hm
      exact h s' m hm
  | saveFundamental s f now =>
    intro s' m hm
    simp only [applyOp, saveFundamentalDataToMongoDB, setKey] at hm
    by_cases hss : s' = s
    · simp only [hss, if_true, eq_self_iff_true, Option.some.injEq] at hm
      subst hm
      have hp : ((st.symbols s).getD emptyMeta).priceDataAvailable = none ∨
          ((st.symbols s).getD emptyMeta).priceDataAvailable = some true := by
        cases hst : st.symbols s with
        | none => simp [hst, emptyMeta]
        | some m0 => simpa [hst] using (h s m0 hst).1
      refine ⟨hp, Or.inr rfl, Or.inr rfl, ?_⟩
      rcases hp with hf | hf <;> simp [hf, truthy]
    · simp only [if_neg hss] at hm
      exact h s' m hm
  | deleteSymbol s =>
    intro s' m hm
    simp only [applyOp, deleteSymbolFromMongoDB, setKey] at hm
    by_cases hss : s' = s
    · simp [hss] at hm
    · simp only [if_neg hss] at hm
      exact h s' m hm

/-- Consistency holds after any operation sequence from the empty store. -/
theorem storeConsistent_runOps (ops : List DbOp) : storeConsistent (runOps ops) := by
  have base : storeConsistent emptyDB := by
    intro s m hm
    simp [emptyDB] at hm
  have aux : ∀ (l : List DbOp) (st : MongoDB), storeConsistent st →
      storeConsistent (l.foldl applyOp st) := by
    intro l
    induction l with
    | nil => intro st h; exact h
    | cons op rest ih => intro st h; exact ih _ (storeConsistent_applyOp st op h)
  exact aux ops emptyDB base

/-- C9: after any sequence of price saves, fundamental saves and symbol
deletions starting from the empty store, every stored symbol record has
status `'complete'` iff both availability flags are set, and `'partial'`
iff exactly one is. -/
theorem status_matches_flags (ops : List DbOp) (s : String) (m : SymbolMeta)
    (h : (runOps ops).symbols s = some m) :
    (m.status = some "complete" ↔
      (m.priceDataAvailable = some true ∧ m.fundamentalDataAvailable = some true)) ∧
    (m.status = some "partial" ↔
      ((m.priceDataAvailable = some true ∧ ¬ m.fundamentalDataAvailable = some true) ∨
       (¬ m.priceDataAvailable = some true ∧ m.fundamentalDataAvailable = some true))) := by
  obtain ⟨hp, hf, hone, hst⟩ := storeConsistent_runOps ops s m h
  rcases hp with hp | hp <;> rcases hf with hf | hf <;> simp_all [truthy]

/-- Witness for C9: one price save yields a `'partial'` record. -/
theorem status_matches_flags_witness :
    ((runOps [DbOp.savePrice "A" [] "t"]).symbols "A" =
      some ⟨some "A", none, some true, none, some 0, none, some "t", some "partial"⟩) ∧
    ((SymbolMeta.status ⟨some "A", none, some true, none, some 0, none, some "t", some "partial"⟩
        = some "complete" ↔
      (SymbolMeta.priceDataAvailable
          ⟨some "A", none, some true, none, some 0, none, some "t", some "partial"⟩ = some true ∧
       SymbolMeta.fundamentalDataAvailable
          ⟨some "A", none, some true, none, some 0, none, some "t", some "partial"⟩ = some true)) ∧
     (SymbolMeta.status ⟨some "A", none, some true, none, some 0, none, some "t", some "partial"⟩
        = some "partial" ↔
      ((SymbolMeta.priceDataAvailable
          ⟨some "A", none, some true, none, some 0, none, some "t", some "partial"⟩ = some true ∧
        ¬ SymbolMeta.fundamentalDataAvailable
          ⟨some "A", none, some true, none, some 0, none, some "t", some "partial"⟩ = some true) ∨
       (¬ SymbolMeta.priceDataAvailable
          ⟨some "A", none, some true, none, some 0, none, some "t", some "partial"⟩ = some true ∧
        SymbolMeta.fundamentalDataAvailable
          ⟨some "A", none, some true, none, some 0, none, some "t", some "partial"⟩ = some true)))) :=
  ⟨by decide, status_matches_flags [DbOp.savePrice "A" [] "t"] "A" _ (by decide)⟩

/-! ## Theorems: the REST proxy (C10) -/

/-- C10: each `portfolioService` operation is a single REST call to the
documented endpoint returning the response body: `getPortfolios` issues
`GET /portfolios`, `getHoldings(portfolioId)` issues
`GET /portfolios/{portfolioId}/holdings`, and `uploadCSV(portfolioId, file)`
issues `POST /portfolios/{portfolioId}/upload-csv` with the file as
multipart form data; each resolves to the response's `data` and propagates
any request error to the caller. -/
theorem portfolioService_endpoints {ε δ : Type} (api : Api ε δ) (portfolioId : Nat)
    (file : String) :
    (∀ r, api (apiGet "/portfolios") = .ok r → getPortfolios api = .ok r.data) ∧
    (∀ e, api (apiGet "/portfolios") = .error e → getPortfolios api = .error e) ∧
    (∀ r, api (apiGet ("/portfolios/" ++ toString portfolioId ++ "/holdings")) = .ok r →
      getHoldings api portfolioId = .ok r.data) ∧
    (∀ e, api (apiGet ("/portfolios/" ++ toString portfolioId ++ "/holdings")) = .error e →
      getHoldings api portfolioId = .error e) ∧
    (∀ r, api ⟨.post, "/portfolios/" ++ toString portfolioId ++ "/upload-csv",
        some [("file", file)], some "multipart/form-data"⟩ = .ok r →
      uploadCSV api portfolioId file = .ok r.data) ∧
    (∀ e, api ⟨.post, "/portfolios/" ++ toString portfolioId ++ "/upload-csv",
        some [("file", file)], some "multipart/form-data"⟩ = .error e →
      uploadCSV api portfolioId file = .error e) := by
  refine ⟨?_, ?_, ?_, ?_, ?_, ?_⟩ <;> intro x hx <;>
    simp [getPortfolios, getHoldings, uploadCSV, hx]

/-- Witness for C10 against a concrete backend. -/
theorem portfolioService_endpoints_witness :
    (sampleApi (apiGet "/portfolios") = .ok ⟨7⟩) ∧
    getPortfolios sampleApi = .ok 7 ∧
    getHoldings sampleApi 5 = .ok 7 ∧
    uploadCSV sampleApi 5 "csv-bytes" = .ok 7 :=
  ⟨rfl, (portfolioService_endpoints sampleApi 5 "csv-bytes").1 ⟨7⟩ rfl,
    (portfolioService_endpoints sampleApi 5 "csv-bytes").2.2.1 ⟨7⟩ rfl,
    (portfolioService_endpoints sampleApi 5 "csv-bytes").2.2.2.2.1 ⟨7⟩ rfl⟩

/-! ## Theorems: the scheduler (C2) -/

/-- C2 counterexample: on Friday 2026-01-02 at 12:00, a daily schedule
last run on Thursday 2026-01-01 satisfies the claimed due condition (the
calendar day is later and the time has passed), yet `isScheduleDue`
returns `false`, because the `'daily'` branch compares the
`toDateString()` strings `"Fri Jan 02 2026"` and `"Thu Jan 01 2026"`
lexicographically and `'F' < 'T'`. -/
theorem isScheduleDue_daily_counterexample :
    dailyDueSpec ceSchedule ceNowMs "12:00" = true ∧
    isScheduleDue ceSchedule ceNowMs "12:00" = false := by
  decide

/-- C2 (amended): `isScheduleDue` checks dueness per frequency.  A
`'daily'` schedule is due exactly when the `toDateString()` rendering of
the current instant compares lexicographically greater (as JavaScript
strings) than that of the last run — not when the calendar day is later —
and the current HH:MM time is at or after the schedule's time; a
`'weekly'` schedule exactly when at least 7 full days of elapsed
milliseconds have passed and the time has passed; a `'monthly'` schedule
exactly when the current year/month is at least one calendar month after
the last run's year/month and the time has passed; any other frequency is
never due; and `lastRun = null` is treated as a last run at the epoch. -/
theorem isScheduleDue_by_frequency (schedule : UpdateSchedule) (nowMs : Nat) (ct : String) :
    (schedule.frequency = "daily" →
      (isScheduleDue schedule nowMs ct = true ↔
        (strLt (toDateString (schedule.lastRun.getD 0)) (toDateString nowMs) = true ∧
         strGe ct schedule.time = true))) ∧
    (schedule.frequency = "weekly" →
      (isScheduleDue schedule nowMs ct = true ↔
        (schedule.lastRun.getD 0 + 7 * msPerDay ≤ nowMs ∧ strGe ct schedule.time = true))) ∧
    (schedule.frequency = "monthly" →
      (isScheduleDue schedule nowMs ct = true ↔
        (12 * (civilFromDays (dayOfMs (schedule.lastRun.getD 0))).1 +
            (civilFromDays (dayOfMs (schedule.lastRun.getD 0))).2.1 <
          12 * (civilFromDays (dayOfMs nowMs)).1 + (civilFromDays (dayOfMs nowMs)).2.1 ∧
         strGe ct schedule.time = true))) ∧
    (schedule.frequency ≠ "daily" → schedule.frequency ≠ "weekly" →
      schedule.frequency ≠ "monthly" → isScheduleDue schedule nowMs ct = false) ∧
    (isScheduleDue { schedule with lastRun := none } nowMs ct =
      isScheduleDue { schedule with lastRun := some 0 } nowMs ct) := by
  refine ⟨?_, ?_, ?_, ?_, rfl⟩
  · intro h
    simp [isScheduleDue, h, Bool.and_eq_true]
  · intro h
    have key : (7 : ℤ) ≤
        ⌊((nowMs : ℚ) - ((schedule.lastRun.getD 0 : ℕ) : ℚ)) / (1000 * 60 * 60 * 24)⌋ ↔
        schedule.lastRun.getD 0 + 7 * msPerDay ≤ nowMs := by
      rw [Int.le_floor, le_div_iff₀ (by norm_num)]
      have e : ((7 : ℤ) : ℚ) * (1000 * 60 * 60 * 24) = 604800000 := by norm_num
      rw [e]
      constructor
      · intro h1
        have h2 : ((schedule.lastRun.getD 0 + 7 * msPerDay : ℕ) : ℚ) ≤ (nowMs : ℚ) := by
          push_cast [msPerDay]
          linarith
        exact_mod_cast h2
      · intro h1
        have h2 : ((schedule.lastRun.getD 0 + 7 * msPerDay : ℕ) : ℚ) ≤ (nowMs : ℚ) :=
          Nat.cast_le.mpr h1
        push_cast [msPerDay] at h2
        linarith
    simp [isScheduleDue, h, Bool.and_eq_true, decide_eq_true_iff, key]
  · intro h
    have key : (1 : ℤ) ≤
        (((civilFromDays (dayOfMs nowMs)).1 : ℤ) -
            ((civilFromDays (dayOfMs (schedule.lastRun.getD 0))).1 : ℤ)) * 12 +
          (((civilFromDays (dayOfMs nowMs)).2.1 : ℤ) -
            ((civilFromDays (dayOfMs (schedule.lastRun.getD 0))).2.1 : ℤ)) ↔
        12 * (civilFromDays (dayOfMs (schedule.lastRun.getD 0))).1 +
            (civilFromDays (dayOfMs (schedule.lastRun.getD 0))).2.1 <
          12 * (civilFromDays (dayOfMs nowMs)).1 + (civilFromDays (dayOfMs nowMs)).2.1 := by
      omega
    simp [isScheduleDue, h, Bool.and_eq_true, decide_eq_true_iff, key]
  · intro h1 h2 h3
    simp [isScheduleDue, h1, h2, h3]

/-- Witness for the amended C2 at a concrete weekly schedule. -/
theorem isScheduleDue_by_frequency_witness :
    (weeklySchedule.frequency = "weekly") ∧
    (isScheduleDue weeklySchedule (8 * msPerDay) "03:30" = true ↔
      (weeklySchedule.lastRun.getD 0 + 7 * msPerDay ≤ 8 * msPerDay ∧
        strGe "03:30" weeklySchedule.time = true)) :=
  ⟨rfl, (isScheduleDue_by_frequency weeklySchedule (8 * msPerDay) "03:30").2.1 rfl⟩

/-! ## Theorems: the mock price generator (C8) -/

/-- Rounding to two decimals is monotone. -/
theorem round2_mono {x y : ℚ} (h : x ≤ y) : round2 x ≤ round2 y := by
  unfold round2
  have hf : (⌊100 * x + 1 / 2⌋ : ℤ) ≤ ⌊100 * y + 1 / 2⌋ := Int.floor_mono (by linarith)
  have hf' : ((⌊100 * x + 1 / 2⌋ : ℤ) : ℚ) ≤ ((⌊100 * y + 1 / 2⌋ : ℤ) : ℚ) := by
    exact_mod_cast hf
  exact div_le_div_of_nonneg_right hf' (by norm_num)

/-- `1.toFixed(2)` is `1`. -/
theorem round2_one : round2 1 = 1 := by
  unfold round2
  norm_num

/-- Rounding preserves the lower bound `1`. -/
theorem one_le_round2 {x : ℚ} (h : 1 ≤ x) : 1 ≤ round2 x := round2_one ▸ round2_mono h

/-- The open/high/low/close ordering of one generated record, before
rounding: `A` is the updated `currentPrice` and `r2, r3, r4` the draws for
high, low and open. -/
theorem ohlcAux (A r2 r3 r4 : ℚ) (hA : 1 ≤ A) (h2 : 0 ≤ r2) (h3 : 0 ≤ r3)
    (h4a : 0 ≤ r4) (h4b : r4 ≤ 1) :
    A - r3 * A * (2 / 100) ≤
      A - r3 * A * (2 / 100) +
        r4 * (A + r2 * A * (2 / 100) - (A - r3 * A * (2 / 100))) ∧
    A - r3 * A * (2 / 100) +
        r4 * (A + r2 * A * (2 / 100) - (A - r3 * A * (2 / 100))) ≤
      A + r2 * A * (2 / 100) ∧
    A - r3 * A * (2 / 100) ≤ A ∧ A ≤ A + r2 * A * (2 / 100) := by
  have hA0 : (0 : ℚ) ≤ A := by linarith
  have t2 : (0 : ℚ) ≤ r2 * A * (2 / 100) :=
    mul_nonneg (mul_nonneg h2 hA0) (by norm_num)
  have t3 : (0 : ℚ) ≤ r3 * A * (2 / 100) :=
    mul_nonneg (mul_nonneg h3 hA0) (by norm_num)
  have hHL : (0 : ℚ) ≤ A + r2 * A * (2 / 100) - (A - r3 * A * (2 / 100)) := by linarith
  have g1 : (0 : ℚ) ≤ r4 * (A + r2 * A * (2 / 100) - (A - r3 * A * (2 / 100))) :=
    mul_nonneg h4a hHL
  have g2 : r4 * (A + r2 * A * (2 / 100) - (A - r3 * A * (2 / 100))) ≤
      A + r2 * A * (2 / 100) - (A - r3 * A * (2 / 100)) :=
    mul_le_of_le_one_left hHL h4b
  exact ⟨by linarith, by linarith, by linarith, by linarith⟩

/-- Every record the generator loop emits satisfies the OHLC ordering, the
close floor of 1, the weekend exclusion, and draws its date from the input
day list. -/
theorem genLoop_mem_facts (rand : Nat → ℚ) (hr : ∀ n, 0 ≤ rand n ∧ rand n ≤ 1) :
    ∀ (days : List Nat) (k : Nat) (price : ℚ) (rec : PriceData),
      rec ∈ genLoop rand days k price →
      rec.low ≤ rec.openPrice ∧ rec.openPrice ≤ rec.high ∧
      rec.low ≤ rec.close ∧ rec.close ≤ rec.high ∧ 1 ≤ rec.close ∧
      isWeekend rec.date = false ∧ rec.date ∈ days := by
  intro days
  induction days with
  | nil =>
    intro k price rec hrec
    simp [genLoop] at hrec
  | cons d ds ih =>
    intro k price rec hrec
    by_cases hw : isWeekend d = true
    · rw [genLoop, if_pos hw] at hrec
      obtain ⟨f1, f2, f3, f4, f5, f6, f7⟩ := ih k price rec hrec
      exact ⟨f1, f2, f3, f4, f5, f6, List.mem_cons_of_mem _ f7⟩
    · rw [genLoop, if_neg hw] at hrec
      rcases List.mem_cons.mp hrec with heq | htail
      · subst heq
        obtain ⟨g1, g2, g3, g4⟩ :=
          ohlcAux (max (price + (rand (k + 1) - 1 / 2) * (2 / 100 + rand k * (3 / 100)) * price) 1)
            (rand (k + 2)) (rand (k + 3)) (rand (k + 4)) (le_max_right _ _)
            (hr (k + 2)).1 (hr (k + 3)).1 (hr (k + 4)).1 (hr (k + 4)).2
        exact ⟨round2_mono g1, round2_mono g2, round2_mono g3, round2_mono g4,
          one_le_round2 (le_max_right _ _), by simpa using hw, List.mem_cons_self d ds⟩
      · obtain ⟨f1, f2, f3, f4, f5, f6, f7⟩ := ih _ _ rec htail
        exact ⟨f1, f2, f3, f4, f5, f6, List.mem_cons_of_mem _ f7⟩

/-- The dates of the emitted records form a sublist of the input days. -/
theorem genLoop_dates_sublist (rand : Nat → ℚ) :
    ∀ (days : List Nat) (k : Nat) (price : ℚ),
      List.Sublist ((genLoop rand days k price).map PriceData.date) days := by
  intro days
  induction days with
  | nil =>
    intro k price
    simp [genLoop]
  | cons d ds ih =>
    intro k price
    by_cases hw : isWeekend d = true
    · rw [genLoop, if_pos hw]
      exact (ih k price).cons d
    · rw [genLoop, if_neg hw]
      simpa using (ih (k + 6) _).cons₂ d

/-- C8: every record list `downloadPriceData` returns satisfies
`low ≤ open ≤ high`, `low ≤ close ≤ high`, `close ≥ 1`, contains no
Saturday or Sunday dates, and has strictly increasing dates. -/
theorem downloadPriceData_record_invariants (rand : Nat → ℚ)
    (hr : ∀ n, 0 ≤ rand n ∧ rand n ≤ 1) (startDay endDay : Nat) :
    (∀ rec ∈ downloadPriceDataRecords rand startDay endDay,
      rec.low ≤ rec.openPrice ∧ rec.openPrice ≤ rec.high ∧
      rec.low ≤ rec.close ∧ rec.close ≤ rec.high ∧ 1 ≤ rec.close ∧
      weekday rec.date ≠ 0 ∧ weekday rec.date ≠ 6) ∧
    ((downloadPriceDataRecords rand startDay endDay).map PriceData.date).Pairwise (· < ·) := by
  constructor
  · intro rec hrec
    obtain ⟨f1, f2, f3, f4, f5, f6, _⟩ := genLoop_mem_facts rand hr _ _ _ rec hrec
    rw [isWeekend] at f6
    simp only [Bool.or_eq_false_iff, beq_eq_false_iff_ne, ne_eq] at f6
    exact ⟨f1, f2, f3, f4, f5, f6.1, f6.2⟩
  · exact (List.pairwise_lt_range' startDay _).sublist (genLoop_dates_sublist rand _ _ _)

/-- Witness for C8 with the all-zero random stream over a one-day range. -/
theorem downloadPriceData_record_invariants_witness :
    (∀ n, 0 ≤ zeroRand n ∧ zeroRand n ≤ 1) ∧
    ((∀ rec ∈ downloadPriceDataRecords zeroRand 4 4,
      rec.low ≤ rec.openPrice ∧ rec.openPrice ≤ rec.high ∧
      rec.low ≤ rec.close ∧ rec.close ≤ rec.high ∧ 1 ≤ rec.close ∧
      weekday rec.date ≠ 0 ∧ weekday rec.date ≠ 6) ∧
    ((downloadPriceDataRecords zeroRand 4 4).map PriceData.date).Pairwise (· < ·)) :=
  ⟨fun _ => ⟨le_refl 0, zero_le_one⟩,
    downloadPriceData_record_invariants zeroRand (fun _ => ⟨le_refl 0, zero_le_one⟩) 4 4⟩

/-! ## Theorems: batch download orchestration (C1, C3, C4, C5) -/

/-- `modifyAt` preserves length. -/
theorem modifyAt_length (f : α → α) : ∀ (n : Nat) (l : List α),
    (modifyAt f n l).length = l.length := by
  intro n l
  induction l generalizing n with
  | nil => cases n <;> rfl
  | cons a as ih => cases n with
    | zero => rfl
    | succ m => simpa [modifyAt] using ih m

/-- `markDownloading` preserves length. -/
theorem markDownloading_length (ov : Bool) : ∀ (n i : Nat) (prog : List DownloadProgress),
    (markDownloading ov i n prog).length = prog.length := by
  intro n
  induction n with
  | zero => intro i prog; rfl
  | succ m ih =>
    intro i prog
    rw [markDownloading, ih (i + 1) _, modifyAt_length]

/-- A symbol's task appends exactly its event list. -/
theorem processSymbol_events (env : Env) (ov : Bool) (symbols : List String)
    (acc : MongoDB × List DownloadProgress × List Ev) (s : String) :
    (processSymbol env ov symbols acc s).2.2 = acc.2.2 ++ symEvents env ov s := by
  unfold processSymbol
  split <;> rfl

/-- A symbol's task preserves the progress-array length. -/
theorem processSymbol_length (env : Env) (ov : Bool) (symbols : List String)
    (acc : MongoDB × List DownloadProgress × List Ev) (s : String) :
    (processSymbol env ov symbols acc s).2.1.length = acc.2.1.length := by
  unfold processSymbol
  split <;> simp [modifyAt_length]

/-- The price-data collection after one symbol's task: the symbol's series
is replaced by what it downloaded (when the download succeeds); every
other key is untouched. -/
theorem processSymbol_priceData (env : Env) (ov : Bool) (symbols : List String)
    (acc : MongoDB × List DownloadProgress × List Ev) (s : String) (key : String) :
    (processSymbol env ov symbols acc s).1.priceData key =
      if env.fetchOk s = true ∧ key = s then some (fetchedData env ov s)
      else acc.1.priceData key := by
  unfold processSymbol
  by_cases hok : env.fetchOk s = true
  · rw [if_pos hok]
    by_cases hks : key = s
    · simp [savePriceDataToMongoDB, setKey, hok, hks]
    · simp [savePriceDataToMongoDB, setKey, hok, hks]
  · rw [if_neg hok]
    simp [hok]

/-- Batch events: `Promise.allSettled` appends each task's events in
order. -/
theorem processBatch_events (env : Env) (ov : Bool) (symbols : List String) :
    ∀ (batch : List String) (acc : MongoDB × List DownloadProgress × List Ev),
      (processBatch env ov symbols acc batch).2.2 =
        acc.2.2 ++ batch.flatMap (symEvents env ov) := by
  intro batch
  induction batch with
  | nil => intro acc; simp [processBatch]
  | cons s rest ih =>
    intro acc
    have step : processBatch env ov symbols acc (s :: rest) =
        processBatch env ov symbols (processSymbol env ov symbols acc s) rest := rfl
    rw [step, ih, processSymbol_events]
    simp

/-- Batch processing preserves the progress-array length. -/
theorem processBatch_length (env : Env) (ov : Bool) (symbols : List String) :
    ∀ (batch : List String) (acc : MongoDB × List DownloadProgress × List Ev),
      (processBatch env ov symbols acc batch).2.1.length = acc.2.1.length := by
  intro batch
  induction batch with
  | nil => intro acc; rfl
  | cons s rest ih =>
    intro acc
    have step : processBatch env ov symbols acc (s :: rest) =
        processBatch env ov symbols (processSymbol env ov symbols acc s) rest := rfl
    rw [step, ih, processSymbol_length]

/-- Batch store effect: each symbol of the batch ends up with exactly the
series it fetched; all other keys are untouched. -/
theorem processBatch_priceData (env : Env) (ov : Bool) (symbols : List String)
    (hok : ∀ s, env.fetchOk s = true) :
    ∀ (batch : List String) (acc : MongoDB × List DownloadProgress × List Ev) (key : String),
      (processBatch env ov symbols acc batch).1.priceData key =
        if key ∈ batch then some (fetchedData env ov key)
        else acc.1.priceData key := by
  intro batch
  induction batch with
  | nil => intro acc key; simp [processBatch]
  | cons s rest ih =>
    intro acc key
    have step : processBatch env ov symbols acc (s :: rest) =
        processBatch env ov symbols (processSymbol env ov symbols acc s) rest := rfl
    rw [step, ih, processSymbol_priceData]
    by_cases hr : key ∈ rest
    · simp [hr, List.mem_cons]
    · by_cases hks : key = s
      · simp [hr, hks, hok s]
      · simp [hr, hks, List.mem_cons]

/-- With the cancellation flag never set and enough fuel, the loop's event
trace is the concatenation of every remaining symbol's events, batch after
batch. -/
theorem batchLoop_events_nocancel (env : Env) (ov : Bool) (cancelAt : Nat → Bool)
    (symbols : List String) (hnc : ∀ j, cancelAt j = false) :
    ∀ (fuel i : Nat) (st : MongoDB) (prog : List DownloadProgress)
      (reports : List (List DownloadProgress)) (evs : List Ev),
      symbols.length ≤ i + 100 * fuel →
      (batchLoop env ov cancelAt symbols fuel i st prog reports evs).events =
        evs ++ (symbols.drop i).flatMap (symEvents env ov) := by
  intro fuel
  induction fuel with
  | zero =>
    intro i st prog reports evs hfuel
    have hdrop : symbols.drop i = [] := List.drop_eq_nil_of_le (by omega)
    simp [batchLoop, hdrop]
  | succ f ih =>
    intro i st prog reports evs hfuel
    rw [batchLoop]
    by_cases hi : i < symbols.length
    · rw [if_pos hi, hnc (i / 100)]
      simp only [Bool.false_eq_true, if_false]
      rw [ih (i + 100) _ _ _ _ (by omega), processBatch_events]
      have hdd : (symbols.drop i).drop 100 = symbols.drop (i + 100) := by
        rw [List.drop_drop, Nat.add_comm]
      have hsplit : symbols.drop i =
          (symbols.drop i).take 100 ++ symbols.drop (i + 100) := by
        rw [← hdd]
        exact (List.take_append_drop _ _).symm
      conv_rhs => rw [hsplit, List.flatMap_append]
      rw [List.append_assoc]
    · rw [if_neg hi]
      have hdrop : symbols.drop i = [] := List.drop_eq_nil_of_le (by omega)
      simp [hdrop]

/-- With no cancellation, all fetches succeeding and enough fuel, the final
price-data collection holds exactly the fetched series for every remaining
symbol and is untouched elsewhere. -/
theorem batchLoop_priceData_nocancel (env : Env) (ov : Bool) (cancelAt : Nat → Bool)
    (symbols : List String) (hnc : ∀ j, cancelAt j = false)
    (hok : ∀ s, env.fetchOk s = true) :
    ∀ (fuel i : Nat) (st : MongoDB) (prog : List DownloadProgress)
      (reports : List (List DownloadProgress)) (evs : List Ev) (key : String),
      symbols.length ≤ i + 100 * fuel →
      (batchLoop env ov cancelAt symbols fuel i st prog reports evs).store.priceData key =
        if key ∈ symbols.drop i then some (fetchedData env ov key)
        else st.priceData key := by
  intro fuel
  induction fuel with
  | zero =>
    intro i st prog reports evs key hfuel
    have hdrop : symbols.drop i = [] := List.drop_eq_nil_of_le (by omega)
    simp [batchLoop, hdrop]
  | succ f ih =>
    intro i st prog reports evs key hfuel
    rw [batchLoop]
    by_cases hi : i < symbols.length
    · rw [if_pos hi, hnc (i / 100)]
      simp only [Bool.false_eq_true, if_false]
      rw [ih (i + 100) _ _ _ _ _ (by omega), processBatch_priceData env ov symbols hok]
      have hdd : (symbols.drop i).drop 100 = symbols.drop (i + 100) := by
        rw [List.drop_drop, Nat.add_comm]
      have hsplit : symbols.drop i =
          (symbols.drop i).take 100 ++ symbols.drop (i + 100) := by
        rw [← hdd]
        exact (List.take_append_drop _ _).symm
      by_cases h1 : key ∈ symbols.drop (i + 100)
      · have : key ∈ symbols.drop i := by rw [hsplit]; exact List.mem_append_right _ h1
        simp [h1, this]
      · by_cases h2 : key ∈ (symbols.drop i).take 100
        · have : key ∈ symbols.drop i := by rw [hsplit]; exact List.mem_append_left _ h2
          simp [h1, h2, this]
        · have : key ∉ symbols.drop i := by
            rw [hsplit, List.mem_append]
            tauto
          simp [h1, h2, this]
    · rw [if_neg hi]
      have hdrop : symbols.drop i = [] := List.drop_eq_nil_of_le (by omega)
      simp [hdrop]

/-- An element's image is a sublist of the `flatMap` of its list. -/
theorem flatMap_sublist_of_mem {α β : Type} (f : α → List β) (l : List α) (x : α)
    (h : x ∈ l) : List.Sublist (f x) (l.flatMap f) := by
  obtain ⟨l1, l2, rfl⟩ := List.append_of_mem h
  rw [List.flatMap_append, List.flatMap_cons]
  exact (List.sublist_append_left (f x) (l2.flatMap f)).trans
    (List.sublist_append_right _ _)

/-- In override mode no task ever emits a `getLastAvailableDate` call. -/
theorem symEvents_no_getLast (env : Env) (x s : String) (r : Option Nat) :
    Ev.getLast s r ∉ symEvents env true x := by
  intro h
  unfold symEvents at h
  by_cases hok : env.fetchOk x = true <;> simp [hok] at h

/-- In override mode a successful task deletes the symbol's price data. -/
theorem symEvents_deletePrice (env : Env) (x : String) (hok : env.fetchOk x = true) :
    Ev.deletePrice x ∈ symEvents env true x := by
  unfold symEvents
  simp [hok]

/-- Every task records exactly one download attempt, of its own symbol,
with the range the mode dictates. -/
theorem download_eq_of_mem_symEvents (env : Env) (ov : Bool) (x s : String)
    (a b : Option Nat) (ok : Bool) (h : Ev.download s a b ok ∈ symEvents env ov x) :
    s = x ∧ ok = env.fetchOk x ∧
    a = (if ov then none else (env.lastAvailable x).map fun d => d + 1) ∧
    b = (if ov then none else (env.lastAvailable x).map fun _ => env.today) := by
  unfold symEvents at h
  cases ov with
  | true =>
    by_cases hok : env.fetchOk x = true <;> simp_all
  | false =>
    cases hla : env.lastAvailable x with
    | none =>
      rw [hla] at h
      by_cases hok : env.fetchOk x = true <;> simp_all
    | some d =>
      rw [hla] at h
      by_cases hok : env.fetchOk x = true <;> simp_all

/-- Every task's event list contains its download attempt. -/
theorem download_mem_symEvents (env : Env) (ov : Bool) (x : String) :
    Ev.download x (if ov then none else (env.lastAvailable x).map fun d => d + 1)
      (if ov then none else (env.lastAvailable x).map fun _ => env.today)
      (env.fetchOk x) ∈ symEvents env ov x := by
  unfold symEvents
  cases ov with
  | true => by_cases hok : env.fetchOk x = true <;> simp [hok]
  | false =>
    cases hla : env.lastAvailable x with
    | none => by_cases hok : env.fetchOk x = true <;> simp [hok]
    | some d => by_cases hok : env.fetchOk x = true <;> simp [hok]

/-- A successful task records the save of its downloaded series. -/
theorem save_mem_symEvents (env : Env) (ov : Bool) (x : String)
    (hok : env.fetchOk x = true) :
    Ev.save x (fetchedData env ov x).length ∈ symEvents env ov x := by
  unfold symEvents fetchedData
  cases ov with
  | true => simp [hok]
  | false =>
    cases hla : env.lastAvailable x with
    | none => simp [hok]
    | some d => simp [hok]

/-- C1: with `override = true` (and no cancellation, all downloads
succeeding), every symbol of a non-empty list is handled as a full
re-fetch/delete-and-replace: the complete history is downloaded without
any `getLastAvailableDate` query, the symbol's price data is deleted, the
fresh data is saved, and afterwards the stored series for each symbol is
exactly the freshly downloaded full history — no pre-existing record
survives. -/
theorem downloadBatch_override_refetch (env : Env) (st0 : MongoDB) (symbols : List String)
    (cancelAt : Nat → Bool) (hne : symbols ≠ []) (hok : ∀ s, env.fetchOk s = true)
    (hnc : ∀ j, cancelAt j = false) :
    (∀ s ∈ symbols,
      (downloadBatchPriceData env st0 symbols true cancelAt).store.priceData s =
        some (env.fetch s none none)) ∧
    (∀ s r, Ev.getLast s r ∉ (downloadBatchPriceData env st0 symbols true cancelAt).events) ∧
    (∀ s ∈ symbols,
      Ev.deletePrice s ∈ (downloadBatchPriceData env st0 symbols true cancelAt).events) ∧
    (∀ s ∈ symbols,
      Ev.download s none none true ∈
        (downloadBatchPriceData env st0 symbols true cancelAt).events) ∧
    (∀ s ∈ symbols,
      Ev.save s (env.fetch s none none).length ∈
        (downloadBatchPriceData env st0 symbols true cancelAt).events) := by
  have hev : (downloadBatchPriceData env st0 symbols true cancelAt).events =
      symbols.flatMap (symEvents env true) := by
    unfold downloadBatchPriceData
    rw [batchLoop_events_nocancel env true cancelAt symbols hnc symbols.length 0 _ _ _ _
      (by omega)]
    simp
  have hst : ∀ key, (downloadBatchPriceData env st0 symbols true cancelAt).store.priceData key =
      if key ∈ symbols then some (fetchedData env true key) else st0.priceData key := by
    intro key
    unfold downloadBatchPriceData
    rw [batchLoop_priceData_nocancel env true cancelAt symbols hnc hok symbols.length 0 _ _ _ _ _
      (by omega)]
    simp
  refine ⟨?_, ?_, ?_, ?_, ?_⟩
  · intro s hs
    rw [hst s, if_pos hs]
    rfl
  · intro s r hmem
    rw [hev] at hmem
    obtain ⟨x, _, hx⟩ := List.mem_flatMap.mp hmem
    exact symEvents_no_getLast env x s r hx
  · intro s hs
    rw [hev]
    exact List.mem_flatMap.mpr ⟨s, hs, symEvents_deletePrice env s (hok s)⟩
  · intro s hs
    rw [hev]
    refine List.mem_flatMap.mpr ⟨s, hs, ?_⟩
    have := download_mem_symEvents env true s
    simpa [hok s] using this
  · intro s hs
    rw [hev]
    refine List.mem_flatMap.mpr ⟨s, hs, ?_⟩
    have := save_mem_symEvents env true s (hok s)
    simpa [fetchedData] using this

/-- Witness for C1 over a singleton symbol list. -/
theorem downloadBatch_override_refetch_witness :
    ((["A"] : List String) ≠ []) ∧ (∀ s, sampleEnv.fetchOk s = true) ∧
    (∀ j, noCancel j = false) ∧
    (∀ s ∈ (["A"] : List String),
      (downloadBatchPriceData sampleEnv emptyDB ["A"] true noCancel).store.priceData s =
        some (sampleEnv.fetch s none none)) ∧
    (∀ s r, Ev.getLast s r ∉ (downloadBatchPriceData sampleEnv emptyDB ["A"] true noCancel).events) := by
  have h := downloadBatch_override_refetch sampleEnv emptyDB ["A"] noCancel
    (by simp) (fun _ => rfl) (fun _ => rfl)
  exact ⟨by simp, fun _ => rfl, fun _ => rfl, h.1, h.2.1⟩

/-- Without override, a task's trace starts with the
`getLastAvailableDate` query immediately followed by the download it
dictates. -/
theorem getLast_download_sublist (env : Env) (s : String) :
    List.Sublist
      [Ev.getLast s (env.lastAvailable s),
       Ev.download s ((env.lastAvailable s).map fun d => d + 1)
         ((env.lastAvailable s).map fun _ => env.today) (env.fetchOk s)]
      (symEvents env false s) := by
  unfold symEvents
  cases hla : env.lastAvailable s with
  | none =>
    by_cases hok : env.fetchOk s = true
    · simp only [hok, Option.map_none', Bool.false_eq_true, if_false, if_true]
      exact ((List.nil_sublist _).cons₂ _).cons₂ _
    · rw [Bool.not_eq_true] at hok
      simp only [hok, Option.map_none', Bool.false_eq_true, if_false]
      exact List.Sublist.refl _
  | some d =>
    by_cases hok : env.fetchOk s = true
    · simp only [hok, Option.map_some', Bool.false_eq_true, if_false, if_true]
      exact ((List.nil_sublist _).cons₂ _).cons₂ _
    · rw [Bool.not_eq_true] at hok
      simp only [hok, Option.map_some', Bool.false_eq_true, if_false]
      exact List.Sublist.refl _

/-- C5: in a batch download without override (and no cancellation), each
symbol's task queries `getLastAvailableDate` first and then downloads
exactly the range the answer dictates: from the day after the returned
date through today when a date exists, and the full default history when
the answer is `null`; no download of that symbol ever uses any other
range. -/
theorem downloadBatch_incremental_branch (env : Env) (st0 : MongoDB)
    (symbols : List String) (cancelAt : Nat → Bool) (hnc : ∀ j, cancelAt j = false)
    (s : String) (hs : s ∈ symbols) :
    List.Sublist
      [Ev.getLast s (env.lastAvailable s),
       Ev.download s ((env.lastAvailable s).map fun d => d + 1)
         ((env.lastAvailable s).map fun _ => env.today) (env.fetchOk s)]
      (downloadBatchPriceData env st0 symbols false cancelAt).events ∧
    (∀ a b ok,
      Ev.download s a b ok ∈ (downloadBatchPriceData env st0 symbols false cancelAt).events →
      a = (env.lastAvailable s).map (fun d => d + 1) ∧
      b = (env.lastAvailable s).map (fun _ => env.today)) := by
  have hev : (downloadBatchPriceData env st0 symbols false cancelAt).events =
      symbols.flatMap (symEvents env false) := by
    unfold downloadBatchPriceData
    rw [batchLoop_events_nocancel env false cancelAt symbols hnc symbols.length 0 _ _ _ _
      (by omega)]
    simp
  constructor
  · rw [hev]
    exact (getLast_download_sublist env s).trans
      (flatMap_sublist_of_mem (symEvents env false) symbols s hs)
  · intro a b ok hmem
    rw [hev] at hmem
    obtain ⟨x, _, hx⟩ := List.mem_flatMap.mp hmem
    obtain ⟨hsx, _, ha, hb⟩ := download_eq_of_mem_symEvents env false x s a b ok hx
    subst hsx
    simpa using ⟨ha, hb⟩

/-- Witness for C5: a singleton batch against an environment whose last
available day is 10 and whose today is day 20. -/
theorem downloadBatch_incremental_branch_witness :
    (∀ j, noCancel j = false) ∧ ("A" ∈ (["A"] : List String)) ∧
    (List.Sublist
      [Ev.getLast "A" (sampleEnvIncr.lastAvailable "A"),
       Ev.download "A" ((sampleEnvIncr.lastAvailable "A").map fun d => d + 1)
         ((sampleEnvIncr.lastAvailable "A").map fun _ => sampleEnvIncr.today)
         (sampleEnvIncr.fetchOk "A")]
      (downloadBatchPriceData sampleEnvIncr emptyDB ["A"] false noCancel).events ∧
    (∀ a b ok,
      Ev.download "A" a b ok ∈
        (downloadBatchPriceData sampleEnvIncr emptyDB ["A"] false noCancel).events →
      a = (sampleEnvIncr.lastAvailable "A").map (fun d => d + 1) ∧
      b = (sampleEnvIncr.lastAvailable "A").map (fun _ => sampleEnvIncr.today))) :=
  ⟨fun _ => rfl, by simp,
    downloadBatch_incremental_branch sampleEnvIncr emptyDB ["A"] noCancel
      (fun _ => rfl) "A" (by simp)⟩

/-- Joining the batches recovers the symbols from index `i` on. -/
theorem chunksAux_join (l : List String) :
    ∀ (fuel i : Nat), l.length ≤ i + 100 * fuel →
      (chunksAux l fuel i).flatten = l.drop i := by
  intro fuel
  induction fuel with
  | zero =>
    intro i h
    have hd : l.drop i = [] := List.drop_eq_nil_of_le (by omega)
    simp [chunksAux, hd]
  | succ f ih =>
    intro i h
    rw [chunksAux]
    by_cases hi : i < l.length
    · rw [if_pos hi]
      rw [List.flatten_cons, ih (i + 100) (by omega)]
      have hdd : (l.drop i).drop 100 = l.drop (i + 100) := by
        rw [List.drop_drop, Nat.add_comm]
      rw [← hdd, List.take_append_drop]
    · rw [if_neg hi]
      have hd : l.drop i = [] := List.drop_eq_nil_of_le (by omega)
      simp [hd]

/-- The loop forms `⌈(n - i) / 100⌉` batches. -/
theorem chunksAux_length (l : List String) :
    ∀ (fuel i : Nat), l.length ≤ i + 100 * fuel →
      (chunksAux l fuel i).length = (l.length - i + 99) / 100 := by
  intro fuel
  induction fuel with
  | zero =>
    intro i h
    have : (l.length - i + 99) / 100 = 0 := by omega
    simp [chunksAux, this]
  | succ f ih =>
    intro i h
    rw [chunksAux]
    by_cases hi : i < l.length
    · rw [if_pos hi]
      rw [List.length_cons, ih (i + 100) (by omega)]
      omega
    · rw [if_neg hi]
      have : (l.length - i + 99) / 100 = 0 := by omega
      simp [this]

/-- Every batch has at most 100 symbols. -/
theorem chunksAux_mem_length (l : List String) :
    ∀ (fuel i : Nat) (b : List String), b ∈ chunksAux l fuel i → b.length ≤ 100 := by
  intro fuel
  induction fuel with
  | zero =>
    intro i b hb
    simp [chunksAux] at hb
  | succ f ih =>
    intro i b hb
    rw [chunksAux] at hb
    by_cases hi : i < l.length
    · rw [if_pos hi] at hb
      rcases List.mem_cons.mp hb with hb | hb
      · subst hb
        simpa using Nat.min_le_left _ _
      · exact ih (i + 100) b hb
    · rw [if_neg hi] at hb
      simp at hb

/-- The batch at index `j` is the slice starting at `i + 100 j`. -/
theorem chunksAux_get (l : List String) :
    ∀ (fuel i j : Nat), l.length ≤ i + 100 * fuel →
      (chunksAux l fuel i)[j]? =
        if i + 100 * j < l.length then some ((l.drop (i + 100 * j)).take 100) else none := by
  intro fuel
  induction fuel with
  | zero =>
    intro i j h
    rw [if_neg (by omega)]
    simp [chunksAux]
  | succ f ih =>
    intro i j h
    rw [chunksAux]
    by_cases hi : i < l.length
    · rw [if_pos hi]
      cases j with
      | zero => simp [hi]
      | succ m =>
        simp only [List.getElem?_cons_succ]
        rw [ih (i + 100) m (by omega)]
        have harith : i + 100 + 100 * m = i + 100 * (m + 1) := by ring
        rw [harith]
    · rw [if_neg hi]
      rw [if_neg (by omega)]
      simp

/-- `countP` distributes over `flatMap` as a sum. -/
theorem countP_flatMap {α β : Type} (p : β → Bool) (f : α → List β) :
    ∀ l : List α, (l.flatMap f).countP p = (l.map fun a => (f a).countP p).sum := by
  intro l
  induction l with
  | nil => simp
  | cons a as ih => simp [List.flatMap_cons, List.countP_append, ih]

/-- Each task's event list contains exactly one download attempt, and it
is of the task's own symbol. -/
theorem symEvents_download_count (env : Env) (ov : Bool) (s x : String) :
    (symEvents env ov x).countP (isDownloadOf s) = if x = s then 1 else 0 := by
  cases ov with
  | true =>
    by_cases hok : env.fetchOk x = true <;>
      simp [symEvents, hok, isDownloadOf, List.countP_cons, beq_iff_eq]
  | false =>
    by_cases hok : env.fetchOk x = true <;>
      cases hla : env.lastAvailable x <;>
        simp [symEvents, hok, hla, isDownloadOf, List.countP_cons, beq_iff_eq]

/-- Summing the indicator of `s` over a list counts its occurrences. -/
theorem sum_map_indicator (s : String) :
    ∀ l : List String, (l.map fun x => if x = s then 1 else 0).sum = l.count s := by
  intro l
  induction l with
  | nil => simp
  | cons a as ih =>
    by_cases h : a = s <;> simp [List.count_cons, h, ih, Nat.add_comm]

/-- `flatMap` over a join flattens batch by batch. -/
theorem join_flatMap {α β : Type} (f : α → List β) :
    ∀ L : List (List α), L.flatten.flatMap f = L.flatMap fun b => b.flatMap f := by
  intro L
  induction L with
  | nil => simp
  | cons b bs ih => simp [List.flatten_cons, List.flatMap_append, ih]

/-- C4: `downloadBatchPriceData` partitions the symbol list into
consecutive batches of 100: there are `⌈n / 100⌉` batches of at most 100
symbols, the symbol at index `i` sits at position `i % 100` of batch
`⌊i / 100⌋`, joining the batches gives back the list, the event trace is
the batches' traces in order (each batch fully settled before the next),
every symbol is dispatched exactly once per occurrence, and — one task's
failure never preventing the others — every symbol's download attempt
happens whatever `fetchOk` says. -/
theorem downloadBatch_batching (env : Env) (st0 : MongoDB) (symbols : List String)
    (ov : Bool) (cancelAt : Nat → Bool) (hnc : ∀ j, cancelAt j = false) :
    ((batchList symbols).length = (symbols.length + 99) / 100) ∧
    (∀ b ∈ batchList symbols, b.length ≤ 100) ∧
    ((batchList symbols).flatten = symbols) ∧
    (∀ i, i < symbols.length →
      ∃ b, (batchList symbols)[i / 100]? = some b ∧ b[i % 100]? = symbols[i]?) ∧
    ((downloadBatchPriceData env st0 symbols ov cancelAt).events =
      (batchList symbols).flatMap fun b => b.flatMap (symEvents env ov)) ∧
    (∀ s, (downloadBatchPriceData env st0 symbols ov cancelAt).events.countP
      (isDownloadOf s) = symbols.count s) ∧
    (∀ s ∈ symbols, ∃ a b ok,
      Ev.download s a b ok ∈ (downloadBatchPriceData env st0 symbols ov cancelAt).events) := by
  have hfuel : symbols.length ≤ 0 + 100 * symbols.length := by omega
  have hjoin : (batchList symbols).flatten = symbols := by
    simpa using chunksAux_join symbols symbols.length 0 hfuel
  have hev : (downloadBatchPriceData env st0 symbols ov cancelAt).events =
      symbols.flatMap (symEvents env ov) := by
    unfold downloadBatchPriceData
    rw [batchLoop_events_nocancel env ov cancelAt symbols hnc symbols.length 0 _ _ _ _ hfuel]
    simp
  refine ⟨?_, ?_, hjoin, ?_, ?_, ?_, ?_⟩
  · simpa using chunksAux_length symbols symbols.length 0 hfuel
  · intro b hb
    exact chunksAux_mem_length symbols symbols.length 0 b hb
  · intro i hi
    have hcond : 0 + 100 * (i / 100) < symbols.length :=
      lt_of_le_of_lt (by omega) hi
    have hget := chunksAux_get symbols symbols.length 0 (i / 100) hfuel
    rw [if_pos hcond] at hget
    refine ⟨_, by simpa using hget, ?_⟩
    rw [List.getElem?_take_of_lt (Nat.mod_lt _ (by norm_num)), List.getElem?_drop]
    congr 1
    omega
  · rw [hev]
    conv_lhs => rw [← hjoin]
    exact join_flatMap _ _
  · intro s
    rw [hev, countP_flatMap]
    have : (symbols.map fun x => (symEvents env ov x).countP (isDownloadOf s)) =
        symbols.map fun x => if x = s then 1 else 0 := by
      exact List.map_congr_left fun x _ => symEvents_download_count env ov s x
    rw [this, sum_map_indicator]
  · intro s hs
    rw [hev]
    exact ⟨_, _, _, List.mem_flatMap.mpr ⟨s, hs, download_mem_symEvents env ov s⟩⟩

/-- Witness for C4 over a singleton symbol list. -/
theorem downloadBatch_batching_witness :
    (∀ j, noCancel j = false) ∧
    ((batchList ["A"]).length = ((["A"] : List String).length + 99) / 100) ∧
    ((batchList ["A"]).flatten = ["A"]) ∧
    (∀ s, (downloadBatchPriceData sampleEnv emptyDB ["A"] false noCancel).events.countP
      (isDownloadOf s) = (["A"] : List String).count s) := by
  have h := downloadBatch_batching sampleEnv emptyDB ["A"] false noCancel (fun _ => rfl)
  exact ⟨fun _ => rfl, h.1, h.2.2.1, h.2.2.2.2.2.1⟩

/-- Unfolding one non-cancelled loop iteration. -/
theorem batchLoop_step (env : Env) (ov : Bool) (cancelAt : Nat → Bool)
    (symbols : List String) (f i : Nat) (st : MongoDB) (prog : List DownloadProgress)
    (reports : List (List DownloadProgress)) (evs : List Ev)
    (hin : i < symbols.length) (hnc : cancelAt (i / 100) = false) :
    batchLoop env ov cancelAt symbols (f + 1) i st prog reports evs =
      batchLoop env ov cancelAt symbols f (i + 100)
        (processBatch env ov symbols
          (st, markDownloading ov i ((symbols.drop i).take 100).length prog, evs)
          ((symbols.drop i).take 100)).1
        (processBatch env ov symbols
          (st, markDownloading ov i ((symbols.drop i).take 100).length prog, evs)
          ((symbols.drop i).take 100)).2.1
        (reports ++ [markDownloading ov i ((symbols.drop i).take 100).length prog,
          (processBatch env ov symbols
            (st, markDownloading ov i ((symbols.drop i).take 100).length prog, evs)
            ((symbols.drop i).take 100)).2.1])
        (processBatch env ov symbols
          (st, markDownloading ov i ((symbols.drop i).take 100).length prog, evs)
          ((symbols.drop i).take 100)).2.2 := by
  rw [batchLoop, if_pos hin, hnc]
  rfl

/-- Unfolding the cancelled exit of the loop. -/
theorem batchLoop_cancel_exit (env : Env) (ov : Bool) (cancelAt : Nat → Bool)
    (symbols : List String) (f i : Nat) (st : MongoDB) (prog : List DownloadProgress)
    (reports : List (List DownloadProgress)) (evs : List Ev)
    (hin : i < symbols.length) (hc : cancelAt (i / 100) = true) :
    batchLoop env ov cancelAt symbols (f + 1) i st prog reports evs =
      ⟨st, prog, reports ++ [prog.map (cancelDP env)], evs⟩ := by
  rw [batchLoop, if_pos hin, hc]
  rfl

/-- If the flag is first read as set at boundary `k` (with batch `k` still
to start), the loop processes exactly the batches before `k`, reports the
cancellation over the whole progress array once more, and returns. -/
theorem batchLoop_cancelled (env : Env) (ov : Bool) (cancelAt : Nat → Bool)
    (symbols : List String) (k : Nat) (hk : 100 * k < symbols.length)
    (hck : cancelAt k = true) :
    ∀ (fuel i : Nat) (st : MongoDB) (prog : List DownloadProgress)
      (reports : List (List DownloadProgress)) (evs : List Ev),
      i % 100 = 0 → i ≤ 100 * k → k - i / 100 < fuel →
      (∀ j, i / 100 ≤ j → j < k → cancelAt j = false) →
      (batchLoop env ov cancelAt symbols fuel i st prog reports evs).events =
        evs ++ ((symbols.drop i).take (100 * k - i)).flatMap (symEvents env ov) ∧
      (batchLoop env ov cancelAt symbols fuel i st prog reports evs).reports.getLast? =
        some ((batchLoop env ov cancelAt symbols fuel i st prog reports
          evs).progressFinal.map (cancelDP env)) ∧
      (batchLoop env ov cancelAt symbols fuel i st prog reports evs).progressFinal.length =
        prog.length := by
  intro fuel
  induction fuel with
  | zero =>
    intro i st prog reports evs hi hik hfuel hf
    exact absurd hfuel (by omega)
  | succ f ih =>
    intro i st prog reports evs hi hik hfuel hf
    have hin : i < symbols.length := lt_of_le_of_lt hik hk
    by_cases hik2 : i / 100 = k
    · rw [batchLoop_cancel_exit env ov cancelAt symbols f i st prog reports evs hin
        (hik2 ▸ hck)]
      have hz : 100 * k - i = 0 := by omega
      refine ⟨by simp [hz], ?_, rfl⟩
      simp [List.getLast?_concat]
    · have hlt : i / 100 < k := by omega
      rw [batchLoop_step env ov cancelAt symbols f i st prog reports evs hin
        (hf (i / 100) le_rfl hlt)]
      have hEvs := processBatch_events env ov symbols ((symbols.drop i).take 100)
        (st, markDownloading ov i ((symbols.drop i).take 100).length prog, evs)
      have hLen := processBatch_length env ov symbols ((symbols.drop i).take 100)
        (st, markDownloading ov i ((symbols.drop i).take 100).length prog, evs)
      obtain ⟨h1, h2, h3⟩ := ih (i + 100)
        (processBatch env ov symbols
          (st, markDownloading ov i ((symbols.drop i).take 100).length prog, evs)
          ((symbols.drop i).take 100)).1
        (processBatch env ov symbols
          (st, markDownloading ov i ((symbols.drop i).take 100).length prog, evs)
          ((symbols.drop i).take 100)).2.1
        (reports ++ [markDownloading ov i ((symbols.drop i).take 100).length prog,
          (processBatch env ov symbols
            (st, markDownloading ov i ((symbols.drop i).take 100).length prog, evs)
            ((symbols.drop i).take 100)).2.1])
        (processBatch env ov symbols
          (st, markDownloading ov i ((symbols.drop i).take 100).length prog, evs)
          ((symbols.drop i).take 100)).2.2
        (by omega) (by omega) (by omega) (fun j hj1 hj2 => hf j (by omega) hj2)
      refine ⟨?_, h2, ?_⟩
      · rw [h1, hEvs]
        rw [List.append_assoc]
        congr 1
        rw [← List.flatMap_append]
        congr 1
        have hdd : (symbols.drop i).drop 100 = symbols.drop (i + 100) := by
          rw [List.drop_drop, Nat.add_comm]
        have harith : 100 * k - i = 100 + (100 * k - (i + 100)) := by omega
        rw [harith, List.take_add, hdd]
      · rw [h3, hLen]
        simp [markDownloading_length]

/-- C3: cancellation is cooperative and polled only at batch boundaries.
If the `cancelled` flag reads `false` at the boundaries of batches
`0, …, k-1` and `true` at the boundary of batch `k` (which has not yet
started), then the download attempts are exactly those of the symbols of
batches before `k` — a flag set while a batch is in flight never
interrupts that batch — no symbol of batch `k` or later is ever attempted,
the final `onProgress` report marks every entry (one per symbol) with
status `'error'` and the message `"Cancelled: …"`, and the call returns. -/
theorem downloadBatch_cancellation (env : Env) (st0 : MongoDB) (symbols : List String)
    (ov : Bool) (cancelAt : Nat → Bool) (k : Nat) (hk : 100 * k < symbols.length)
    (h1 : ∀ j, j < k → cancelAt j = false) (h2 : cancelAt k = true) :
    ((downloadBatchPriceData env st0 symbols ov cancelAt).events =
      (symbols.take (100 * k)).flatMap (symEvents env ov)) ∧
    (∀ s a b ok,
      Ev.download s a b ok ∈ (downloadBatchPriceData env st0 symbols ov cancelAt).events →
      s ∈ symbols.take (100 * k)) ∧
    (∀ s ∈ symbols.take (100 * k), ∃ a b ok,
      Ev.download s a b ok ∈ (downloadBatchPriceData env st0 symbols ov cancelAt).events) ∧
    (∃ final,
      (downloadBatchPriceData env st0 symbols ov cancelAt).reports.getLast? = some final ∧
      final.length = symbols.length ∧
      ∀ p ∈ final, p.status = "error" ∧
        p.message = "Cancelled: " ++ (env.cancelReason.getD "Download was cancelled")) := by
  obtain ⟨hev, hrep, hlen⟩ := batchLoop_cancelled env ov cancelAt symbols k hk h2
    symbols.length 0 st0 (symbols.map initDP) [symbols.map initDP] []
    (by omega) (by omega) (by omega) (fun j _ hj => h1 j hj)
  have hev' : (downloadBatchPriceData env st0 symbols ov cancelAt).events =
      (symbols.take (100 * k)).flatMap (symEvents env ov) := by
    unfold downloadBatchPriceData
    simpa using hev
  refine ⟨hev', ?_, ?_, ?_⟩
  · intro s a b ok hmem
    rw [hev'] at hmem
    obtain ⟨x, hx, hmx⟩ := List.mem_flatMap.mp hmem
    obtain ⟨rfl, -, -, -⟩ := download_eq_of_mem_symEvents env ov x s a b ok hmx
    exact hx
  · intro s hs
    rw [hev']
    exact ⟨_, _, _, List.mem_flatMap.mpr ⟨s, hs, download_mem_symEvents env ov s⟩⟩
  · refine ⟨(downloadBatchPriceData env st0 symbols ov
      cancelAt).progressFinal.map (cancelDP env), ?_, ?_, ?_⟩
    · unfold downloadBatchPriceData
      simpa using hrep
    · have : (downloadBatchPriceData env st0 symbols ov cancelAt).progressFinal.length =
          (symbols.map initDP).length := by
        unfold downloadBatchPriceData
        simpa using hlen
      simpa using this
    · intro p hp
      obtain ⟨q, -, rfl⟩ := List.mem_map.mp hp
      exact ⟨rfl, rfl⟩

/-- Witness for C3: the flag is already set before the first batch. -/
theorem downloadBatch_cancellation_witness :
    (100 * 0 < (["A"] : List String).length) ∧ (yesCancel 0 = true) ∧
    (((downloadBatchPriceData sampleEnv emptyDB ["A"] false yesCancel).events =
      ((["A"] : List String).take (100 * 0)).flatMap (symEvents sampleEnv false)) ∧
    (∃ final,
      (downloadBatchPriceData sampleEnv emptyDB ["A"] false yesCancel).reports.getLast? =
        some final ∧
      final.length = (["A"] : List String).length ∧
      ∀ p ∈ final, p.status = "error" ∧
        p.message = "Cancelled: " ++ (sampleEnv.cancelReason.getD "Download was cancelled"))) := by
  have h := downloadBatch_cancellation sampleEnv emptyDB ["A"] false yesCancel 0
    (by simp) (fun j hj => absurd hj (Nat.not_lt_zero j)) rfl
  exact ⟨by simp, rfl, h.1, h.2.2.2⟩

end WealthManager
